import Mathlib

/-! Verification of the `Input` abstraction (`src/util/src/lib.rs`) and the
day03 schematic scanner (`src/day03/src/main.rs`).

Rust strings are modelled as `List Char`; `usize` and `u32` values are
modelled as `Nat`, with saturating and wrapping behaviour made explicit at
the operations that use it; code that can panic returns `Option`, `none`
standing for the panic. -/

namespace Aoc

/-- A puzzle input: the text wrapped by Rust `struct Input(String)`. -/
abbrev Input := List Char

/-- `usize::MAX` on the 64-bit target. -/
def usizeMax : Nat := 18446744073709551615

/-- `u32::MAX`. -/
def u32Max : Nat := 4294967295

/-- Wrapping `u32` multiplication (Rust `*` on `u32`, release profile). -/
def umul (a b : Nat) : Nat := a * b % (u32Max + 1)

/-- Wrapping `u32` addition (Rust `+` on `u32`, release profile). -/
def uadd (a b : Nat) : Nat := (a + b) % (u32Max + 1)

/-- `Iterator::sum` over `u32` values. -/
def sumU32 (l : List Nat) : Nat := l.foldl uadd 0

/-- The characters with the Unicode White_Space property, which is what
Rust `char::is_whitespace` tests. -/
def rustWhitespaceChars : List Char :=
  ['\t', '\n', '\u000B', '\u000C', '\r', ' ', '\u0085', ' ', ' ',
   ' ', ' ', ' ', ' ', ' ', ' ', ' ',
   ' ', ' ', ' ', ' ', ' ', ' ', ' ',
   ' ', '　']

/-- Rust `char::is_whitespace`. -/
def isRustWhitespace (c : Char) : Bool := rustWhitespaceChars.contains c

/-- Rust `str::trim_end`: remove all trailing whitespace characters. -/
def rustTrimEnd (s : List Char) : List Char :=
  (s.reverse.dropWhile isRustWhitespace).reverse

/-- `Input::from_lines`: fold the lines into one string, appending a `'\n'`
after every line, then `trim_end` the accumulated string. -/
def from_lines (lines : List (List Char)) : Input :=
  rustTrimEnd (lines.foldl (fun complete line => complete ++ line ++ ['\n']) [])

/-- `Input::from_str`. -/
def from_str (s : List Char) : Input := s

/-- `Input::trim_trailing_newlines`: Rust `str::trim_end_matches('\n')`,
removing every trailing `'\n'`. -/
def trim_trailing_newlines (input : Input) : Input :=
  (input.reverse.dropWhile (fun c => c == '\n')).reverse

/-- Rust `str::split(c)` for a one-character pattern: splitting the empty
string yields one empty piece, and every separator ends a piece, so a
trailing separator yields a trailing empty piece. -/
def splitChar (sep : Char) : List Char → List (List Char)
  | [] => [[]]
  | c :: rest =>
    if c == sep then [] :: splitChar sep rest
    else
      match splitChar sep rest with
      | [] => [[c]]
      | piece :: pieces => (c :: piece) :: pieces

/-- `Input::as_lines`: split the text on `'\n'`. -/
def as_lines (input : Input) : List (List Char) := splitChar '\n' input

/-- day03 `struct Symbol`. -/
structure Symbol where
  symbol : Char
  row : Nat
  col : Nat
deriving DecidableEq

/-- `Symbol::parse_row`: every character that is neither an ASCII digit nor
`'.'` becomes a `Symbol` carrying its column. -/
def Symbol.parse_row (row : Nat) (line : List Char) : List Symbol :=
  (line.enum.filter (fun p => !p.2.isDigit && p.2 != '.')).map
    (fun p => { symbol := p.2, row := row, col := p.1 })

/-- day03 `struct Number`. -/
structure Number where
  number : Nat
  row : Nat
  start : Nat
  «end» : Nat
deriving DecidableEq

/-- `Number::is_adjacent`: `usize::abs_diff` on the rows, `saturating_sub 1`
on the start column (truncated `Nat` subtraction already saturates at zero)
and `saturating_add 1` on the end column (clamped at `usize::MAX`). -/
def Number.is_adjacent (n : Number) (s : Symbol) : Bool :=
  (if n.row ≥ s.row then n.row - s.row else s.row - n.row) ≤ 1
    && n.start - 1 ≤ s.col && s.col ≤ min (n.«end» + 1) usizeMax

/-- Rust `u32::from_str`: an optional leading `'+'`, then at least one
ASCII digit and nothing else, and the value must fit in `u32` (the
step-by-step checked arithmetic of the Rust implementation fails exactly
when the final value would exceed `u32::MAX`). -/
def parseU32 (s : List Char) : Option Nat :=
  let digits := if s.headD '0' == '+' then s.tail else s
  if digits.isEmpty then none
  else if digits.all Char.isDigit then
    let v := digits.foldl (fun acc c => acc * 10 + (c.toNat - 48)) 0
    if v ≤ u32Max then some v else none
  else none

/-- Rust `slice::split(pred)`: split at every element matching the
predicate; `n` separators yield `n + 1` (possibly empty) groups. -/
def splitOnP {α : Type} (p : α → Bool) : List α → List (List α)
  | [] => [[]]
  | a :: rest =>
    if p a then [] :: splitOnP p rest
    else
      match splitOnP p rest with
      | [] => [[a]]
      | g :: gs => (a :: g) :: gs

/-- `Number::parse_row`: enumerate the characters, split into runs at every
non-digit, drop the empty runs, and turn each run into a `Number`.  The two
`expect`s on `first`/`last` and the `expect` on `parse` are modelled as
`Option` failures. -/
def Number.parse_row (row : Nat) (line : List Char) : Option (List Number) :=
  let indexed_chars := line.enum
  ((splitOnP (fun p => !p.2.isDigit) indexed_chars).filter (fun g => !g.isEmpty)).mapM
    (fun number => do
      let first ← number.head?
      let last ← number.getLast?
      let value ← parseU32 (number.map (fun p => p.2))
      pure { number := value, row := row, start := first.1, «end» := last.1 })

/-- `get_numbers_from_input`: all `Number`s of the grid, row by row. -/
def get_numbers_from_input (input : Input) : Option (List Number) :=
  ((as_lines input).enum.mapM (fun p => Number.parse_row p.1 p.2)).map List.flatten

/-- `get_symbols_from_input`: all `Symbol`s of the grid, row by row. -/
def get_symbols_from_input (input : Input) : List Symbol :=
  (as_lines input).enum.flatMap (fun p => Symbol.parse_row p.1 p.2)

/-- `itertools` `collect_tuple` into a pair: `some` exactly on two-element
lists. -/
def collect_tuple2 {α : Type} : List α → Option (α × α)
  | [a, b] => some (a, b)
  | _ => none

/-- day03 `get_part_numbers`. -/
def get_part_numbers (input : Input) : Option (List Nat) :=
  let input := trim_trailing_newlines input
  let symbols := get_symbols_from_input input
  (get_numbers_from_input input).map (fun numbers =>
    (numbers.filter (fun number => symbols.any (fun symbol => number.is_adjacent symbol))).map
      (fun number => number.number))

/-- day03 `get_gear_ratios`. -/
def get_gear_ratios (input : Input) : Option (List Nat) :=
  let input := trim_trailing_newlines input
  (get_numbers_from_input input).map (fun numbers =>
    ((((get_symbols_from_input input).filter (fun symbol => symbol.symbol == '*')).filterMap
        (fun symbol => collect_tuple2 (numbers.filter (fun number => number.is_adjacent symbol)))).map
      (fun gears => umul gears.1.number gears.2.number)))

/-- day03 `part1`. -/
def part1 (input : Input) : Option Nat := (get_part_numbers input).map sumU32

/-- day03 `part2`. -/
def part2 (input : Input) : Option Nat := (get_gear_ratios input).map sumU32

/-- Spec side: the maximal runs of ASCII-digit characters of a line, as
(start index, digit characters), scanning from index `i`: a digit extends
the maximal run that starts immediately after it, and otherwise starts a
new run of its own; a non-digit contributes nothing. -/
def digitRuns : Nat → List Char → List (Nat × List Char)
  | _, [] => []
  | i, c :: cs =>
    let rest := digitRuns (i + 1) cs
    if c.isDigit then
      match rest with
      | (j, r) :: rs => if j = i + 1 then (i, c :: r) :: rs else (i, [c]) :: rest
      | [] => [(i, [c])]
    else rest

/-- Spec side: the base-10 value of a string of digits. -/
def decVal (s : List Char) : Nat := s.foldl (fun acc c => acc * 10 + (c.toNat - 48)) 0

/-- Spec side: the NumberToken that a digit run at a given row denotes. -/
def runToken (row : Nat) (r : Nat × List Char) : Number :=
  { number := decVal r.2, row := row, start := r.1, «end» := r.1 + r.2.length - 1 }

/-- Spec side: join strings with a single `'\n'` between them. -/
def joinWithNl : List (List Char) → List Char
  | [] => []
  | [l] => l
  | l :: rest => l ++ '\n' :: joinWithNl rest

/-- Spec side: the gear-ratio contribution of one symbol — the product of
the two adjacent numbers when the symbol is a `*` with exactly two adjacent
numbers, and nothing otherwise. -/
def specGearRatio (numbers : List Number) (s : Symbol) : Option Nat :=
  if s.symbol = '*' then
    let adj := (numbers.filter (fun n => n.is_adjacent s)).map (fun n => n.number)
    if adj.length = 2 then some (umul (adj.headD 0) (adj.getLastD 0)) else none
  else none

/-- The ten-line schematic fixture used by the day03 tests. -/
def fixture : Input :=
  from_lines
    ["467..114..".toList, "...*......".toList, "..35..633.".toList,
     "......#...".toList, "617*......".toList, ".....+.58.".toList,
     "..592.....".toList, "......755.".toList, "...$.*....".toList,
     ".664.598..".toList]

theorem dropWhile_head_false {α : Type} (p : α → Bool) (l : List α) (a : α) (t : List α)
    (h : l.dropWhile p = a :: t) : p a = false := by
  induction l with
  | nil => simp [List.dropWhile] at h
  | cons b l ih =>
    by_cases hb : p b = true
    · rw [List.dropWhile_cons, if_pos hb] at h
      exact ih h
    · rw [List.dropWhile_cons, if_neg hb] at h
      injection h with h1 h2
      subst h1
      simpa using hb

theorem dropWhile_idem {α : Type} (p : α → Bool) (l : List α) :
    (l.dropWhile p).dropWhile p = l.dropWhile p := by
  cases h : l.dropWhile p with
  | nil => simp
  | cons a t =>
    rw [List.dropWhile_cons, if_neg]
    simp [dropWhile_head_false p l a t h]

theorem trim_trim (input : Input) :
    trim_trailing_newlines (trim_trailing_newlines input) = trim_trailing_newlines input := by
  unfold trim_trailing_newlines
  rw [List.reverse_reverse, dropWhile_idem]

theorem trim_append_replicate (input : Input) :
    ∃ k, input = trim_trailing_newlines input ++ List.replicate k '\n' := by
  refine ⟨(input.reverse.takeWhile (fun c => c == '\n')).length, ?_⟩
  unfold trim_trailing_newlines
  have hrep : input.reverse.takeWhile (fun c => c == '\n')
      = List.replicate (input.reverse.takeWhile (fun c => c == '\n')).length '\n' := by
    rw [List.eq_replicate_length]
    intro b hb
    have := List.mem_takeWhile_imp hb
    simpa using this
  conv_lhs =>
    rw [← input.reverse_reverse,
      ← List.takeWhile_append_dropWhile (fun c => c == '\n') input.reverse]
  rw [List.reverse_append, hrep, List.reverse_replicate]
  simp

theorem trim_getLast_ne (input : Input) (c : Char)
    (h : (trim_trailing_newlines input).getLast? = some c) : c ≠ '\n' := by
  unfold trim_trailing_newlines at h
  rw [List.getLast?_reverse] at h
  cases hd : input.reverse.dropWhile (fun x => x == '\n') with
  | nil => rw [hd] at h; simp at h
  | cons a t =>
    rw [hd] at h
    simp only [List.head?_cons, Option.some.injEq] at h
    subst h
    have := dropWhile_head_false (fun x => x == '\n') input.reverse a t hd
    simpa using this

/-- C8: `trimTrailingNewlines` is idempotent, removes all trailing `'\n'`
characters (the input is the trimmed text followed by some number of
newlines) and preserves everything before them, and the trimmed text never
ends in `'\n'`. -/
theorem trim_trailing_newlines_spec (input : Input) :
    trim_trailing_newlines (trim_trailing_newlines input) = trim_trailing_newlines input
    ∧ (∃ k, input = trim_trailing_newlines input ++ List.replicate k '\n')
    ∧ ∀ c, (trim_trailing_newlines input).getLast? = some c → c ≠ '\n' :=
  ⟨trim_trim input, trim_append_replicate input, fun c h => trim_getLast_ne input c h⟩

/-- C8 witness: the specification evaluated on a concrete input. -/
theorem trim_trailing_newlines_spec_witness :
    trim_trailing_newlines ("ab\n\n".toList) = "ab".toList
    ∧ ∀ c, (trim_trailing_newlines ("ab\n\n".toList)).getLast? = some c → c ≠ '\n' :=
  ⟨by decide, fun c h => (trim_trailing_newlines_spec ("ab\n\n".toList)).2.2 c h⟩

/-- C9: `get_part_numbers` and `get_gear_ratios` trim trailing newlines
internally, so pre-trimming the input does not change their result. -/
theorem trim_invariance_spec (input : Input) :
    get_part_numbers (trim_trailing_newlines input) = get_part_numbers input
    ∧ get_gear_ratios (trim_trailing_newlines input) = get_gear_ratios input := by
  unfold get_part_numbers get_gear_ratios
  rw [trim_trim]
  exact ⟨rfl, rfl⟩

/-- C1: `is_adjacent` is true exactly when the rows differ by at most one
and the column lies in the span widened by one on each side, with the left
edge truncated at zero and the right edge not clamped. -/
theorem is_adjacent_iff_spec (n : Number) (s : Symbol) (h : s.col ≤ usizeMax) :
    n.is_adjacent s = true ↔
      Nat.dist n.row s.row ≤ 1 ∧ n.start - 1 ≤ s.col ∧ s.col ≤ n.«end» + 1 := by
  unfold Number.is_adjacent
  unfold usizeMax at h ⊢
  simp only [Bool.and_eq_true, decide_eq_true_eq, ge_iff_le, Nat.dist]
  split_ifs <;> omega

/-- C1 witness: a concrete adjacent pair. -/
theorem is_adjacent_iff_spec_witness :
    (Number.mk 1 2 4 6).is_adjacent (Symbol.mk '*' 2 7) = true ↔
      Nat.dist 2 2 ≤ 1 ∧ 4 - 1 ≤ 7 ∧ 7 ≤ 6 + 1 :=
  is_adjacent_iff_spec (Number.mk 1 2 4 6) (Symbol.mk '*' 2 7) (by decide)

/-- C3: on the ten-line schematic fixture the part numbers are exactly
467, 35, 633, 617, 592, 755, 664 and 598 with sum 4361, and the gear
ratios are exactly 16345 and 451490 with sum 467835. -/
theorem fixture_results :
    get_part_numbers fixture = some [467, 35, 633, 617, 592, 755, 664, 598]
    ∧ part1 fixture = some 4361
    ∧ get_gear_ratios fixture = some [16345, 451490]
    ∧ part2 fixture = some 467835 :=
  ⟨by decide, by decide, by decide, by decide⟩

theorem filter_enumFrom_length {α : Type} (q : α → Bool) (l : List α) :
    ∀ i, ((List.enumFrom i l).filter (fun p => q p.2)).length = (l.filter q).length := by
  induction l with
  | nil => intro i; rfl
  | cons a l ih =>
    intro i
    rw [List.enumFrom_cons, List.filter_cons, List.filter_cons]
    cases h : q a <;> simp [h, ih]

/-- C6: symbol extraction yields exactly the characters that are neither
ASCII digits nor `'.'`, at their row and column: every produced symbol
satisfies the invariant and points at its character, every qualifying
character yields its symbol, there is one symbol per qualifying character,
and a line made of digits and dots yields no symbols. -/
theorem symbols_extraction_spec (row : Nat) (line : List Char) :
    (∀ s ∈ Symbol.parse_row row line,
        s.symbol.isDigit = false ∧ s.symbol ≠ '.' ∧ s.row = row
          ∧ line.get? s.col = some s.symbol)
    ∧ (∀ col c, line.get? col = some c → c.isDigit = false → c ≠ '.' →
        Symbol.mk c row col ∈ Symbol.parse_row row line)
    ∧ (Symbol.parse_row row line).length = (line.filter (fun c => !c.isDigit && c != '.')).length
    ∧ ((∀ c ∈ line, c.isDigit = true ∨ c = '.') → Symbol.parse_row row line = []) := by
  refine ⟨?_, ?_, ?_, ?_⟩
  · intro s hs
    unfold Symbol.parse_row at hs
    simp only [List.mem_map, List.mem_filter] at hs
    obtain ⟨⟨i, c⟩, ⟨hmem, hcond⟩, rfl⟩ := hs
    simp only [Bool.and_eq_true, Bool.not_eq_true', bne_iff_ne, ne_eq] at hcond
    refine ⟨hcond.1, hcond.2, rfl, ?_⟩
    rw [List.get?_eq_getElem?]
    exact List.mem_enum_iff_getElem?.mp hmem
  · intro col c hget hdig hdot
    unfold Symbol.parse_row
    simp only [List.mem_map, List.mem_filter]
    refine ⟨(col, c), ⟨List.mem_enum_iff_getElem?.mpr ?_, by simp [hdig, hdot]⟩, rfl⟩
    rw [← List.get?_eq_getElem?]
    exact hget
  · unfold Symbol.parse_row
    rw [List.length_map, List.enum_eq_enumFrom]
    exact filter_enumFrom_length (fun c => !c.isDigit && c != '.') line 0
  · intro hall
    unfold Symbol.parse_row
    rw [List.filter_eq_nil_iff.mpr, List.map_nil]
    intro p hp
    have hget := List.mem_enum_iff_getElem?.mp hp
    have hmem : p.2 ∈ line := by
      apply List.get?_mem
      rw [List.get?_eq_getElem?]
      exact hget
    rcases hall p.2 hmem with h | h <;> simp [h]

/-- C6 witness: the completeness direction applied to a concrete line. -/
theorem symbols_extraction_spec_witness :
    Symbol.mk '*' 0 0 ∈ Symbol.parse_row 0 ('*' :: '1' :: '.' :: []) :=
  (symbols_extraction_spec 0 ('*' :: '1' :: '.' :: [])).2.1 0 '*' (by decide)
    (by decide) (by decide)

theorem foldl_append_newline (L : List (List Char)) (acc : List Char) :
    L.foldl (fun complete line => complete ++ line ++ ['\n']) acc
      = acc ++ (L.map (fun l => l ++ ['\n'])).flatten := by
  induction L generalizing acc with
  | nil => simp
  | cons l L ih =>
    rw [List.foldl_cons, ih]
    simp [List.append_assoc]

theorem flatten_map_append_nl (L : List (List Char)) (hL : L ≠ []) :
    (L.map (fun l => l ++ ['\n'])).flatten = joinWithNl L ++ ['\n'] := by
  induction L with
  | nil => exact absurd rfl hL
  | cons l L ih =>
    cases L with
    | nil => simp [joinWithNl]
    | cons m M =>
      rw [List.map_cons, List.flatten_cons, ih (by simp)]
      show (l ++ ['\n']) ++ (joinWithNl (m :: M) ++ ['\n'])
        = (l ++ '\n' :: joinWithNl (m :: M)) ++ ['\n']
      simp [List.append_assoc]

theorem rustTrimEnd_append_ws (s : List Char) (c : Char) (hc : isRustWhitespace c = true) :
    rustTrimEnd (s ++ [c]) = rustTrimEnd s := by
  unfold rustTrimEnd
  rw [List.reverse_append]
  simp [List.dropWhile_cons, hc]

theorem rustTrimEnd_append_not_ws (s : List Char) (c : Char)
    (hc : isRustWhitespace c = false) : rustTrimEnd (s ++ [c]) = s ++ [c] := by
  unfold rustTrimEnd
  rw [List.reverse_append]
  simp [List.dropWhile_cons, hc]

theorem rustTrimEnd_getLast_not_ws (s : List Char) (c : Char)
    (h : (rustTrimEnd s).getLast? = some c) : isRustWhitespace c = false := by
  unfold rustTrimEnd at h
  rw [List.getLast?_reverse] at h
  cases hd : s.reverse.dropWhile isRustWhitespace with
  | nil => rw [hd] at h; simp at h
  | cons a t =>
    rw [hd] at h
    simp only [List.head?_cons, Option.some.injEq] at h
    subst h
    exact dropWhile_head_false isRustWhitespace s.reverse a t hd

/-- C10: `from_lines` stores the newline-join of the given lines with all
trailing whitespace removed — not only newlines but every trailing Unicode
whitespace character of the joined text — so the stored text never ends in
a whitespace character. -/
theorem from_lines_join_trim_spec (L : List (List Char)) :
    from_lines L = rustTrimEnd (joinWithNl L)
    ∧ ∀ c, (from_lines L).getLast? = some c → isRustWhitespace c = false := by
  have h1 : from_lines L = rustTrimEnd (joinWithNl L) := by
    cases L with
    | nil => rfl
    | cons l M =>
      unfold from_lines
      rw [foldl_append_newline, List.nil_append, flatten_map_append_nl _ (by simp),
        rustTrimEnd_append_ws _ _ (by decide)]
  exact ⟨h1, fun c hc => rustTrimEnd_getLast_not_ws _ c (h1 ▸ hc)⟩

/-- C10 witness: a trailing space and a trailing empty line are removed. -/
theorem from_lines_join_trim_spec_witness :
    from_lines [['a', ' '], []] = rustTrimEnd (joinWithNl [['a', ' '], []])
    ∧ from_lines [['a', ' '], []] = ['a'] :=
  ⟨(from_lines_join_trim_spec [['a', ' '], []]).1, by decide⟩

theorem splitChar_cons_eq (sep c : Char) (rest : List Char) :
    splitChar sep (c :: rest)
      = if c == sep then [] :: splitChar sep rest
        else
          match splitChar sep rest with
          | [] => [[c]]
          | piece :: pieces => (c :: piece) :: pieces := rfl

theorem splitChar_no_sep (sep : Char) (z : List Char) (hz : sep ∉ z) :
    splitChar sep z = [z] := by
  induction z with
  | nil => rfl
  | cons c cs ih =>
    have hc : ¬((c == sep) = true) := by
      simp only [beq_iff_eq]
      rintro rfl
      exact hz (List.mem_cons_self _ _)
    rw [splitChar_cons_eq, if_neg hc, ih (fun h => hz (List.mem_cons_of_mem _ h))]

theorem splitChar_append_sep (sep : Char) (m rest : List Char) (hm : sep ∉ m) :
    splitChar sep (m ++ sep :: rest) = m :: splitChar sep rest := by
  induction m with
  | nil =>
    rw [List.nil_append, splitChar_cons_eq, if_pos (by simp)]
  | cons c cs ih =>
    have hc : ¬((c == sep) = true) := by
      simp only [beq_iff_eq]
      rintro rfl
      exact hm (List.mem_cons_self _ _)
    rw [List.cons_append, splitChar_cons_eq, if_neg hc,
      ih (fun h => hm (List.mem_cons_of_mem _ h))]

theorem splitChar_flatten_sep (M : List (List Char)) (z : List Char)
    (hM : ∀ l ∈ M, '\n' ∉ l) (hz : '\n' ∉ z) :
    splitChar '\n' ((M.map (fun l => l ++ ['\n'])).flatten ++ z) = M ++ [z] := by
  induction M with
  | nil => simpa using splitChar_no_sep '\n' z hz
  | cons m M ih =>
    rw [List.map_cons, List.flatten_cons, List.append_assoc, List.append_assoc,
      List.singleton_append,
      splitChar_append_sep '\n' m _ (hM m (List.mem_cons_self _ _)),
      ih (fun l hl => hM l (List.mem_cons_of_mem _ hl))]
    rfl

/-- C4 (amended): for a nonempty list of newline-free lines whose last line
ends in a non-whitespace character, `as_lines` after `from_lines`
reproduces the lines exactly. -/
theorem from_lines_as_lines_roundtrip (L : List (List Char)) (hne : L ≠ [])
    (hnl : ∀ l ∈ L, '\n' ∉ l) (z : Char) (hz : (L.getLast hne).getLast? = some z)
    (hwz : isRustWhitespace z = false) :
    as_lines (from_lines L) = L := by
  obtain ⟨ys, hys⟩ := List.getLast?_eq_some_iff.mp hz
  have hsplit : L.dropLast ++ [L.getLast hne] = L := List.dropLast_append_getLast hne
  have hfl : from_lines L
      = (L.dropLast.map (fun l => l ++ ['\n'])).flatten ++ (ys ++ [z]) := by
    unfold from_lines
    conv_lhs => rw [← hsplit]
    rw [foldl_append_newline, List.nil_append, List.map_append, List.flatten_append]
    simp only [List.map_cons, List.map_nil, List.flatten_cons, List.flatten_nil,
      List.append_nil]
    rw [hys, show (L.dropLast.map (fun l => l ++ ['\n'])).flatten ++ ((ys ++ [z]) ++ ['\n'])
        = ((L.dropLast.map (fun l => l ++ ['\n'])).flatten ++ (ys ++ [z])) ++ ['\n'] by
      simp [List.append_assoc]]
    rw [rustTrimEnd_append_ws _ _ (by decide),
      show (L.dropLast.map (fun l => l ++ ['\n'])).flatten ++ (ys ++ [z])
        = ((L.dropLast.map (fun l => l ++ ['\n'])).flatten ++ ys) ++ [z] by
      simp [List.append_assoc]]
    rw [rustTrimEnd_append_not_ws _ _ hwz]
  rw [hfl]
  unfold as_lines
  have hznl : '\n' ∉ ys ++ [z] := hys ▸ hnl _ (List.getLast_mem hne)
  rw [splitChar_flatten_sep _ _ (fun l hl => hnl l ((List.dropLast_prefix L).subset hl)) hznl,
    ← hys, hsplit]

/-- C4 witness: the amended round trip on a concrete line list. -/
theorem from_lines_as_lines_roundtrip_witness :
    as_lines (from_lines [['a', 'b'], ['c']]) = [['a', 'b'], ['c']] :=
  from_lines_as_lines_roundtrip [['a', 'b'], ['c']] (by decide) (by decide) 'c'
    (by decide) (by decide)

/-- C4 counterexample: `["a "]` is nonempty and newline-free, yet the round
trip drops the trailing space. -/
theorem from_lines_roundtrip_cex :
    ([['a', ' ']] : List (List Char)) ≠ []
    ∧ '\n' ∉ (['a', ' '] : List Char)
    ∧ as_lines (from_lines [['a', ' ']]) ≠ [['a', ' ']]
    ∧ as_lines (from_lines [['a', ' ']]) = [['a']] := by decide

/-- C2: the gear-ratio computation considers exactly the `*` symbols; each
contributes the product of its two adjacent numbers when it has exactly two
of them, and a `*` with any other count of adjacent numbers (and any
non-`*` symbol) contributes nothing. -/
theorem gear_ratios_spec (input : Input) (numbers : List Number)
    (h : get_numbers_from_input (trim_trailing_newlines input) = some numbers) :
    get_gear_ratios input
      = some ((get_symbols_from_input (trim_trailing_newlines input)).filterMap
          (specGearRatio numbers)) := by
  simp only [get_gear_ratios]
  rw [h, Option.map_some']
  congr 1
  rw [List.map_filterMap, List.filterMap_filter]
  apply List.filterMap_congr
  intro s _
  by_cases hs : s.symbol = '*'
  · rw [if_pos (by simp [hs])]
    unfold specGearRatio
    rw [if_pos hs]
    rcases hadj : numbers.filter (fun n => n.is_adjacent s) with _ | ⟨a, _ | ⟨b, _ | ⟨c, t⟩⟩⟩
    · rw [hadj]; rfl
    · rw [hadj]; rfl
    · rw [hadj]; rfl
    · rw [hadj, show collect_tuple2 (a :: b :: c :: t) = none from rfl, if_neg]
      · rfl
      · simp
  · rw [if_neg (by simp [hs])]
    unfold specGearRatio
    rw [if_neg hs]

/-- C2 witness: the characterization applied to the ten-line fixture. -/
theorem gear_ratios_spec_witness :
    get_gear_ratios fixture
      = some ((get_symbols_from_input (trim_trailing_newlines fixture)).filterMap
          (specGearRatio
            [Number.mk 467 0 0 2, Number.mk 114 0 5 7, Number.mk 35 2 2 3,
             Number.mk 633 2 6 8, Number.mk 617 4 0 2, Number.mk 58 5 7 8,
             Number.mk 592 6 2 4, Number.mk 755 7 6 8, Number.mk 664 9 1 3,
             Number.mk 598 9 5 7])) :=
  gear_ratios_spec fixture
    [Number.mk 467 0 0 2, Number.mk 114 0 5 7, Number.mk 35 2 2 3,
     Number.mk 633 2 6 8, Number.mk 617 4 0 2, Number.mk 58 5 7 8,
     Number.mk 592 6 2 4, Number.mk 755 7 6 8, Number.mk 664 9 1 3,
     Number.mk 598 9 5 7] (by decide)

theorem splitOnP_cons_eq {α : Type} (p : α → Bool) (a : α) (rest : List α) :
    splitOnP p (a :: rest)
      = if p a then [] :: splitOnP p rest
        else
          match splitOnP p rest with
          | [] => [[a]]
          | g :: gs => (a :: g) :: gs := rfl

theorem splitOnP_ne_nil {α : Type} (p : α → Bool) (l : List α) : splitOnP p l ≠ [] := by
  cases l with
  | nil => simp [splitOnP]
  | cons a rest =>
    rw [splitOnP_cons_eq]
    split
    · simp
    · cases h : splitOnP p rest <;> simp [h]

theorem digitRuns_nil (i : Nat) : digitRuns i [] = [] := rfl

theorem digitRuns_cons (i : Nat) (c : Char) (cs : List Char) :
    digitRuns i (c :: cs)
      = if c.isDigit then
          match digitRuns (i + 1) cs with
          | (j, r) :: rs =>
            if j = i + 1 then (i, c :: r) :: rs else (i, [c]) :: digitRuns (i + 1) cs
          | [] => [(i, [c])]
        else digitRuns (i + 1) cs := rfl

theorem digitRuns_cons_nondigit (i : Nat) (c : Char) (cs : List Char)
    (hc : c.isDigit = false) : digitRuns i (c :: cs) = digitRuns (i + 1) cs := by
  rw [digitRuns_cons, if_neg (by simp [hc])]

theorem digitRuns_start_le (l : List Char) : ∀ i j r rs,
    digitRuns i l = (j, r) :: rs → i ≤ j := by
  induction l with
  | nil => intro i j r rs h; simp [digitRuns_nil] at h
  | cons c cs ih =>
    intro i j r rs h
    by_cases hc : c.isDigit
    · rw [digitRuns_cons, if_pos hc] at h
      cases hrest : digitRuns (i + 1) cs with
      | nil =>
        rw [hrest] at h
        dsimp only at h
        injection h with h1 h2
        injection h1 with h3 h4
        omega
      | cons p rs' =>
        rw [hrest] at h
        rcases p with ⟨j', r'⟩
        dsimp only at h
        by_cases hj : j' = i + 1
        · rw [if_pos hj] at h
          injection h with h1 h2
          injection h1 with h3 h4
          omega
        · rw [if_neg hj] at h
          injection h with h1 h2
          injection h1 with h3 h4
          omega
    · rw [digitRuns_cons_nondigit _ _ _ (by simpa using hc)] at h
      exact Nat.le_of_succ_le (ih (i + 1) j r rs h)

theorem digitRuns_content (l : List Char) : ∀ i r, r ∈ digitRuns i l →
    r.2 ≠ [] ∧ ∀ x ∈ r.2, x.isDigit = true := by
  induction l with
  | nil => intro i r h; simp [digitRuns_nil] at h
  | cons c cs ih =>
    intro i r h
    by_cases hc : c.isDigit
    · rw [digitRuns_cons, if_pos hc] at h
      cases hrest : digitRuns (i + 1) cs with
      | nil =>
        rw [hrest] at h
        dsimp only at h
        rcases List.mem_singleton.mp h with rfl
        refine ⟨by simp, ?_⟩
        intro x hx
        rcases List.mem_singleton.mp hx with rfl
        exact hc
      | cons p rs' =>
        rw [hrest] at h
        rcases p with ⟨j', r'⟩
        dsimp only at h
        have hmem' : (j', r') ∈ digitRuns (i + 1) cs := by
          rw [hrest]; exact List.mem_cons_self _ _
        by_cases hj : j' = i + 1
        · rw [if_pos hj] at h
          rcases List.mem_cons.mp h with rfl | h2
          · refine ⟨by simp, ?_⟩
            intro x hx
            rcases List.mem_cons.mp hx with rfl | hx2
            · exact hc
            · exact (ih (i + 1) (j', r') hmem').2 x hx2
          · refine ih (i + 1) r ?_
            rw [hrest]
            exact List.mem_cons_of_mem _ h2
        · rw [if_neg hj] at h
          rcases List.mem_cons.mp h with rfl | h2
          · refine ⟨by simp, ?_⟩
            intro x hx
            rcases List.mem_singleton.mp hx with rfl
            exact hc
          · exact ih (i + 1) r (hrest ▸ h2)
    · rw [digitRuns_cons_nondigit _ _ _ (by simpa using hc)] at h
      exact ih (i + 1) r h

theorem digitRuns_of_no_digit (l : List Char) (h : ∀ c ∈ l, c.isDigit = false) :
    ∀ i, digitRuns i l = [] := by
  induction l with
  | nil => intro i; rfl
  | cons c cs ih =>
    intro i
    rw [digitRuns_cons_nondigit _ _ _ (h c (List.mem_cons_self _ _))]
    exact ih (fun x hx => h x (List.mem_cons_of_mem _ hx)) (i + 1)

theorem filter_splitOnP_enumFrom (l : List Char) : ∀ i,
    (splitOnP (fun p : Nat × Char => !p.2.isDigit) (List.enumFrom i l)).filter
        (fun g => !g.isEmpty)
      = (digitRuns i l).map (fun r => List.enumFrom r.1 r.2) := by
  induction l with
  | nil => intro i; rfl
  | cons c cs ih =>
    intro i
    by_cases hc : c.isDigit
    case neg =>
      rw [List.enumFrom_cons, splitOnP_cons_eq, if_pos (by simp [hc]), List.filter_cons,
        if_neg (by simp), ih (i + 1), digitRuns_cons_nondigit i c cs (by simpa using hc)]
    case pos =>
      rw [List.enumFrom_cons, splitOnP_cons_eq, if_neg (by simp [hc])]
      obtain ⟨g, gs, hsplit⟩ : ∃ g gs,
          splitOnP (fun p : Nat × Char => !p.2.isDigit) (List.enumFrom (i + 1) cs)
            = g :: gs := by
        cases hx : splitOnP (fun p : Nat × Char => !p.2.isDigit) (List.enumFrom (i + 1) cs) with
        | nil => exact absurd hx (splitOnP_ne_nil _ _)
        | cons a b => exact ⟨a, b, rfl⟩
      rw [hsplit]
      dsimp only
      rw [List.filter_cons, if_pos (by simp)]
      cases cs with
      | nil =>
        have hg : ([[]] : List (List (Nat × Char))) = g :: gs := by rw [← hsplit]; rfl
        injection hg with hg1 hg2
        subst hg1
        subst hg2
        rw [digitRuns_cons, if_pos hc]
        rfl
      | cons d cs' =>
        by_cases hd : d.isDigit
        case pos =>
          have hih := ih (i + 1)
          rw [List.enumFrom_cons, splitOnP_cons_eq, if_neg (by simp [hd])] at hsplit hih
          obtain ⟨g1, gs1, hsplit'⟩ : ∃ g1 gs1,
              splitOnP (fun p : Nat × Char => !p.2.isDigit) (List.enumFrom (i + 1 + 1) cs')
                = g1 :: gs1 := by
            cases hx : splitOnP (fun p : Nat × Char => !p.2.isDigit)
                (List.enumFrom (i + 1 + 1) cs') with
            | nil => exact absurd hx (splitOnP_ne_nil _ _)
            | cons a b => exact ⟨a, b, rfl⟩
          rw [hsplit'] at hsplit hih
          dsimp only at hsplit hih
          injection hsplit with hg hgs
          subst hg
          subst hgs
          rw [List.filter_cons, if_pos (by simp)] at hih
          cases hrest : digitRuns (i + 1) (d :: cs') with
          | nil =>
            rw [hrest] at hih
            exact absurd hih (by simp)
          | cons p rs0 =>
            rcases p with ⟨j0, r0⟩
            rw [hrest, List.map_cons] at hih
            dsimp only at hih
            injection hih with hih1 hih2
            cases r0 with
            | nil => exact absurd hih1.symm (by simp)
            | cons e r0' =>
              rw [List.enumFrom_cons] at hih1
              injection hih1 with hih3 hih4
              injection hih3 with hj0 he
              rw [digitRuns_cons, if_pos hc, hrest]
              dsimp only
              rw [if_pos hj0.symm, List.map_cons]
              dsimp only
              rw [List.enumFrom_cons, List.enumFrom_cons, hih2, hih4, ← hj0, he]
        case neg =>
          have hih := ih (i + 1)
          rw [List.enumFrom_cons, splitOnP_cons_eq, if_pos (by simp [hd])] at hsplit hih
          injection hsplit with hg hgs
          subst hg
          rw [List.filter_cons, if_neg (by simp)] at hih
          rw [← hgs, hih, digitRuns_cons_nondigit (i + 1) d cs' (by simpa using hd),
            digitRuns_cons, if_pos hc, digitRuns_cons_nondigit (i + 1) d cs' (by simpa using hd)]
          cases hrest : digitRuns (i + 1 + 1) cs' with
          | nil => rfl
          | cons p rs0 =>
            rcases p with ⟨j0, r0⟩
            have hge : i + 1 + 1 ≤ j0 := digitRuns_start_le cs' (i + 1 + 1) j0 r0 rs0 hrest
            dsimp only
            rw [if_neg (by omega), List.map_cons]
            rfl

theorem enumFrom_getLast?_fst {α : Type} (c : α) (t : List α) : ∀ s : Nat, ∃ z : Nat × α,
    (List.enumFrom s (c :: t)).getLast? = some z ∧ z.1 = s + t.length := by
  induction t generalizing c with
  | nil => intro s; exact ⟨(s, c), rfl, rfl⟩
  | cons b t ih =>
    intro s
    obtain ⟨z, hz, hz1⟩ := ih b (s + 1)
    refine ⟨z, ?_, by simp only [List.length_cons]; omega⟩
    rw [List.enumFrom_cons, List.enumFrom_cons, List.getLast?_cons_cons, ← List.enumFrom_cons]
    exact hz

theorem parseU32_digits (c : Char) (t : List Char) (hc : c.isDigit = true)
    (ht : ∀ x ∈ t, x.isDigit = true) (hb : decVal (c :: t) ≤ u32Max) :
    parseU32 (c :: t) = some (decVal (c :: t)) := by
  have hcp : ((c :: t).headD '0' == '+') = false := by
    simp only [List.headD_cons, beq_eq_false_iff_ne, ne_eq]
    rintro rfl
    exact absurd hc (by decide)
  have hall : (c :: t).all Char.isDigit = true := by
    rw [List.all_eq_true]
    intro x hx
    rcases List.mem_cons.mp hx with rfl | hx'
    · exact hc
    · exact ht x hx'
  simp only [parseU32, hcp]
  rw [show (if false = true then (c :: t).tail else c :: t) = c :: t from by simp]
  rw [if_neg (by simp), if_pos hall,
    show List.foldl (fun acc c => acc * 10 + (c.toNat - 48)) 0 (c :: t) = decVal (c :: t) from
      rfl,
    if_pos hb]

theorem mapM_option_eq_some {α β : Type} (f : α → Option β) (g : α → β) (l : List α)
    (h : ∀ x ∈ l, f x = some (g x)) : l.mapM f = some (l.map g) := by
  induction l with
  | nil => rfl
  | cons a l ih =>
    rw [List.mapM_cons, h a (List.mem_cons_self _ _),
      ih (fun x hx => h x (List.mem_cons_of_mem _ hx))]
    rfl

theorem mapM_runs (row : Nat) (runs : List (Nat × List Char))
    (hcontent : ∀ r ∈ runs, r.2 ≠ [] ∧ ∀ x ∈ r.2, x.isDigit = true)
    (hb : ∀ r ∈ runs, decVal r.2 ≤ u32Max) :
    (runs.map (fun r => List.enumFrom r.1 r.2)).mapM
      (fun number => do
        let first ← number.head?
        let last ← number.getLast?
        let value ← parseU32 (number.map (fun p => p.2))
        pure { number := value, row := row, start := first.1, «end» := last.1 })
      = some (runs.map (runToken row)) := by
  induction runs with
  | nil => rfl
  | cons r rs ih =>
    rcases r with ⟨s, l2⟩
    rcases hcontent ⟨s, l2⟩ (List.mem_cons_self _ _) with ⟨hne, hdig⟩
    cases l2 with
    | nil => exact absurd rfl hne
    | cons c t =>
      rw [List.map_cons, List.mapM_cons]
      obtain ⟨z, hz, hz1⟩ := enumFrom_getLast?_fst c t s
      have hhead : (List.enumFrom s (c :: t)).head? = some (s, c) := by
        rw [List.enumFrom_cons]; rfl
      have hparse : parseU32 ((List.enumFrom s (c :: t)).map (fun p => p.2))
          = some (decVal (c :: t)) := by
        rw [show (List.enumFrom s (c :: t)).map (fun p => p.2) = c :: t from
          List.enumFrom_map_snd s (c :: t)]
        exact parseU32_digits c t (hdig c (List.mem_cons_self _ _))
          (fun x hx => hdig x (List.mem_cons_of_mem _ hx))
          (hb ⟨s, c :: t⟩ (List.mem_cons_self _ _))
      rw [hhead, hz, hparse,
        ih (fun r hr => hcontent r (List.mem_cons_of_mem _ hr))
          (fun r hr => hb r (List.mem_cons_of_mem _ hr))]
      show some (Number.mk (decVal (c :: t)) row s z.1 :: rs.map (runToken row))
        = some (runToken row (s, c :: t) :: rs.map (runToken row))
      have hz2 : z.1 = s + (c :: t).length - 1 := by
        rw [List.length_cons]
        omega
      rw [hz2]
      rfl

theorem parse_row_eq_runs (row : Nat) (line : List Char)
    (h : ∀ r ∈ digitRuns 0 line, decVal r.2 ≤ u32Max) :
    Number.parse_row row line = some ((digitRuns 0 line).map (runToken row)) := by
  simp only [Number.parse_row]
  rw [List.enum_eq_enumFrom, filter_splitOnP_enumFrom line 0]
  exact mapM_runs row (digitRuns 0 line) (fun r hr => digitRuns_content line 0 r hr) h

theorem get_numbers_eq_runs (input : Input)
    (h : ∀ p ∈ (as_lines input).enum, ∀ r ∈ digitRuns 0 p.2, decVal r.2 ≤ u32Max) :
    get_numbers_from_input input
      = some (((as_lines input).enum.map
          (fun p => (digitRuns 0 p.2).map (runToken p.1))).flatten) := by
  unfold get_numbers_from_input
  rw [mapM_option_eq_some (fun p => Number.parse_row p.1 p.2)
    (fun p => (digitRuns 0 p.2).map (runToken p.1)) _
    (fun p hp => parse_row_eq_runs p.1 p.2 (h p hp))]
  rfl

/-- C5 (amended): provided every maximal digit run's value is at most
`u32::MAX`, number extraction produces, for each line at its row index,
exactly one token per maximal run of ASCII digits — starting at the run's
first column, ending at its last column, and carrying its base-10 value —
a line without digit runs contributes no tokens, and `start ≤ end` holds
for every produced token. -/
theorem numbers_extraction_spec (input : Input)
    (h : ∀ p ∈ (as_lines input).enum, ∀ r ∈ digitRuns 0 p.2, decVal r.2 ≤ u32Max) :
    (get_numbers_from_input input
      = some (((as_lines input).enum.map
          (fun p => (digitRuns 0 p.2).map (runToken p.1))).flatten))
    ∧ (∀ nums, get_numbers_from_input input = some nums → ∀ n ∈ nums, n.start ≤ n.«end»)
    ∧ (∀ row line, (∀ c ∈ line, c.isDigit = false) → Number.parse_row row line = some []) := by
  have h1 := get_numbers_eq_runs input h
  refine ⟨h1, ?_, ?_⟩
  · intro nums hnums n hn
    rw [h1] at hnums
    injection hnums with hnums
    subst hnums
    rcases List.mem_flatten.mp hn with ⟨L, hL, hnL⟩
    rcases List.mem_map.mp hL with ⟨p, hp, rfl⟩
    rcases List.mem_map.mp hnL with ⟨r, hr, rfl⟩
    have hcont := digitRuns_content p.2 0 r hr
    have hlen : 1 ≤ r.2.length := by
      have := List.length_pos.mpr hcont.1
      omega
    simp only [runToken]
    omega
  · intro row line hline
    have hz := digitRuns_of_no_digit line hline 0
    rw [parse_row_eq_runs row line (by rw [hz]; intro r hr; simp at hr), hz]
    rfl

/-- C5 witness: extraction evaluated on a concrete two-line grid. -/
theorem numbers_extraction_spec_witness :
    get_numbers_from_input (from_str ("12.\n.3".toList))
      = some (((as_lines (from_str ("12.\n.3".toList))).enum.map
          (fun p => (digitRuns 0 p.2).map (runToken p.1))).flatten) :=
  (numbers_extraction_spec (from_str ("12.\n.3".toList)) (by decide)).1

/-- C5 counterexample: the single-line input `4294967296` has exactly one
maximal digit run, whose base-10 value is 4294967296, yet extraction
fails and produces no tokens (the `u32` parse of the run fails). -/
theorem numbers_extraction_cex :
    digitRuns 0 ("4294967296".toList) = [(0, "4294967296".toList)]
    ∧ decVal ("4294967296".toList) = 4294967296
    ∧ get_numbers_from_input (from_str ("4294967296".toList)) = none :=
  ⟨by decide, by decide, by decide⟩

/-- C7 (amended): the scanner never fails provided every maximal digit
run's value fits in `u32`: under that condition both entry points return a
result, so no panic branch is taken. -/
theorem scanner_total_spec (input : Input)
    (h : ∀ p ∈ (as_lines (trim_trailing_newlines input)).enum,
        ∀ r ∈ digitRuns 0 p.2, decVal r.2 ≤ u32Max) :
    (get_part_numbers input).isSome = true ∧ (get_gear_ratios input).isSome = true := by
  have hn := get_numbers_eq_runs (trim_trailing_newlines input) h
  constructor
  · simp only [get_part_numbers]
    rw [hn]
    rfl
  · simp only [get_gear_ratios]
    rw [hn]
    rfl

/-- C7 witness: totality on the ten-line fixture. -/
theorem scanner_total_spec_witness :
    (get_part_numbers fixture).isSome = true ∧ (get_gear_ratios fixture).isSome = true :=
  scanner_total_spec fixture (by decide)

/-- C7 counterexample: on the single-line input `4294967296` the defensive
`u32` parse fails, so the scanner's failure branch is reachable and both
entry points fail. -/
theorem scanner_total_cex :
    get_part_numbers (from_str ("4294967296".toList)) = none
    ∧ get_gear_ratios (from_str ("4294967296".toList)) = none :=
  ⟨by decide, by decide⟩

end Aoc
